import Mathlib

/-!
# golicense: the CSV output (`output_csv.go`)

A shallow embedding of `CSVOutput.Finish` and `CSVOutput.Close`, and the
properties of the record sequence that `Close` builds and writes.

Modelling conventions.

* A `*module.Module` is an address (`Ptr`) into a heap `Ptr → Module`; the
  store `o.modules` is keyed by the address, not by the module's fields, so
  two different addresses may point at modules with the same `Path`.
* The store is an association list with pairwise distinct addresses. Go
  iterates a map in an unspecified order: the list order stands for the order
  in which `range o.modules` happens to deliver the entries.
* Go strings are Lean strings, compared lexicographically by code point,
  which on UTF-8 text is the byte-wise order that `sort.Strings` uses.
* An `interface{}` value is represented by what the type switch of `Close`
  can tell apart: something implementing `error`, a `*license.License`
  (possibly a nil pointer), or a value of any other dynamic type.
* The field `Config` is read by neither `Finish` nor `Close` (its comment says
  it will be used to check whether a license is allowed; no such check
  exists), so it has no part in the embedding.
-/

deriving instance DecidableEq for Except

namespace Golicense

/-- Modelled from the spec: the declaration of `module.Module` lives in the
package `module`, outside the sources at hand; a module is identified by its
path and version, and `Close` reads exactly the fields `Path` and `Version`. -/
structure Module where
  Path : String
  Version : String
  deriving DecidableEq, Repr

/-- Modelled from the spec: the declaration of `license.License` lives in the
package `license`, outside the sources at hand; a license carries a display
name and an SPDX identifier, and `Close` reads exactly `Name` and `SPDX`. -/
structure License where
  Name : String
  SPDX : String
  deriving DecidableEq, Repr

/-- The address held by a `*module.Module`. -/
abbrev Ptr := Nat

/-- The modules that the addresses point at. -/
abbrev Heap := Ptr → Module

/-- A value stored in `o.modules` (static type `interface{}`), by dynamic type:
`err msg` implements `error`; `lic l` has dynamic type `*license.License`, with
`none` the nil pointer; `other t` is anything else, `t` being what `%T` prints
for it (`"<nil>"` for the nil interface). -/
inductive Outcome where
  | err (msg : String)
  | lic (l : Option License)
  | other (typeName : String)
  deriving DecidableEq, Repr

/-- The field `modules map[*module.Module]interface{}`, as the sequence of
entries in iteration order; the nil map is the empty list. -/
abbrev Modules := List (Ptr × Outcome)

/-- The type `Record`. -/
structure Record where
  Dependency : String
  Version : String
  SPDX : String
  License : String
  deriving DecidableEq, Repr

/-- The method `Record.ToRow`. -/
def Record.ToRow (r : Record) : List String :=
  [r.Dependency, r.Version, r.SPDX, r.License]

/-- A Go `map[string]V`: a lookup yields `none` where Go yields the zero value
for an absent key. -/
def StrMap (V : Type) : Type := String → Option V

/-- The empty map (`map[string]V{}`). -/
def StrMap.empty {V : Type} : StrMap V := fun _ => none

/-- The assignment `m[k] = v`. -/
def StrMap.set {V : Type} (m : StrMap V) (k : String) (v : V) : StrMap V :=
  fun k' => if k' = k then some v else m k'

/-- The assignment `o.modules[m] = v` on the store: the value of an existing
key is replaced, a new key is added (at the end of the enumeration). -/
def storeSet : Modules → Ptr → Outcome → Modules
  | [], m, v => [(m, v)]
  | (p, o) :: rest, m, v =>
    if p = m then (p, v) :: rest else (p, o) :: storeSet rest m v

/-- The method `Finish(m, l, err)`: `o.modules[m] = l`, then `o.modules[m] = err`
when `err != nil`; `err` is `none` for the nil error. -/
def Finish (modules : Modules) (m : Ptr) (l : Option License) (err : Option String) :
    Modules :=
  let modules := storeSet modules m (Outcome.lic l)
  match err with
  | some e => storeSet modules m (Outcome.err e)
  | none => modules

/-- The three locals `keys`, `index`, `licenses` of `Close`. -/
structure Tables where
  keys : List String
  index : StrMap Ptr
  licenses : StrMap Outcome

/-- The state of the locals before the first loop. -/
def Tables.init : Tables :=
  { keys := [], index := StrMap.empty, licenses := StrMap.empty }

/-- One iteration of `for m, l := range o.modules`. -/
def Tables.step (heap : Heap) (t : Tables) (e : Ptr × Outcome) : Tables :=
  { keys := t.keys ++ [(heap e.1).Path]
    index := t.index.set (heap e.1).Path e.1
    licenses := t.licenses.set (heap e.1).Path e.2 }

/-- The first loop of `Close`, over the entries in iteration order. -/
def collect (heap : Heap) (modules : Modules) : Tables :=
  modules.foldl (Tables.step heap) Tables.init

/-- Lexicographic comparison of two sequences of code points: `true` when the
first is at most the second. -/
def lexLe : List Nat → List Nat → Bool
  | [], _ => true
  | _ :: _, [] => false
  | a :: as, b :: bs => a < b || (a == b && lexLe as bs)

/-- The code points of a string. -/
def codes (s : String) : List Nat := s.data.map Char.toNat

/-- The comparison `a <= b` of Go strings. -/
def StrLe (a b : String) : Prop := lexLe (codes a) (codes b) = true

instance StrLe.decidable : DecidableRel StrLe := fun a b =>
  inferInstanceAs (Decidable (lexLe (codes a) (codes b) = true))

/-- The call `sort.Strings`: the ascending rearrangement of the keys. Strings
that compare equal are equal, so the result does not depend on the sorting
algorithm. -/
def sortStrings (keys : List String) : List String :=
  keys.insertionSort StrLe

/-- How the record-building loop can stop early: by returning an error with a
message, or by dereferencing a nil `*module.Module`. -/
inductive Failure where
  | returned (msg : String)
  | nilDeref
  deriving DecidableEq, Repr

/-- The body of the second loop of `Close` for the key `k`: the type switch on
`licenses[k]`, with `m := index[k]`. -/
def classify (heap : Heap) (t : Tables) (k : String) : Except Failure Record :=
  match t.licenses k with
  | some (Outcome.err _) =>
    match t.index k with
    | none => Except.error Failure.nilDeref
    | some m =>
      Except.ok
        { Dependency := (heap m).Path, Version := (heap m).Version
          SPDX := "NOT-FOUND", License := "not found" }
  | some (Outcome.lic l) =>
    match t.index k with
    | none => Except.error Failure.nilDeref
    | some m =>
      match l with
      | some lic =>
        Except.ok
          { Dependency := (heap m).Path, Version := (heap m).Version
            SPDX := lic.SPDX, License := lic.Name }
      | none =>
        Except.ok
          { Dependency := (heap m).Path, Version := (heap m).Version
            SPDX := "NOT-FOUND", License := "not-found" }
  | some (Outcome.other ty) =>
    Except.error (Failure.returned ("unexpected license type: " ++ ty))
  | none => Except.error (Failure.returned ("unexpected license type: " ++ "<nil>"))

/-- The second loop of `Close`: fills `final` key by key and stops at the
first key whose body fails. -/
def classifyAll (heap : Heap) (t : Tables) : List String → Except Failure (List Record)
  | [] => Except.ok []
  | k :: ks =>
    match classify heap t k with
    | Except.error e => Except.error e
    | Except.ok r =>
      match classifyAll heap t ks with
      | Except.error e => Except.error e
      | Except.ok rs => Except.ok (r :: rs)

/-- The part of `Close` between the creation of the writer and the header:
the slice `final`, or the failure that ends `Close`. -/
def buildRecords (heap : Heap) (modules : Modules) : Except Failure (List Record) :=
  let t := collect heap modules
  classifyAll heap t (sortStrings t.keys)

/-- The header row. -/
def headers : List String := ["Dependency", "Version", "SPDX", "License"]

/-- What the environment does to the file operations of `Close`: the error of
`os.Create` if it fails, the error of the `n`-th call of `w.Write` (the header
is call `0`) if it fails, and the error met by the deferred `w.Flush` if it
fails. -/
structure FileEnv where
  createErr : Option String
  writeErr : Nat → Option String
  flushErr : Option String

/-- An environment in which no file operation fails. -/
def FileEnv.ok : FileEnv :=
  { createErr := none, writeErr := fun _ => none, flushErr := none }

/-- The result of `Close`: what it returns (`Except.ok ()` for `nil`),
whether the file was created (and truncated), and the rows accepted by
`w.Write`, in order. -/
structure CloseResult where
  ret : Except Failure Unit
  created : Bool
  written : List (List String)
  deriving DecidableEq, Repr

/-- The loop `for _, r := range final` with its `w.Write`: `n` is the number of
the next call, `acc` the rows accepted so far. -/
def writeRows (env : FileEnv) : Nat → List (List String) → List (List String) →
    Option String × List (List String)
  | _, [], acc => (none, acc)
  | n, row :: rest, acc =>
    match env.writeErr n with
    | some e => (some e, acc)
    | none => writeRows env (n + 1) rest (acc ++ [row])

/-- The method `Close`, for the file name `path` (the field `Path`). The
deferred `w.Flush()` returns nothing, so `env.flushErr` has no influence on
the result. -/
def Close (heap : Heap) (path : String) (env : FileEnv) (modules : Modules) : CloseResult :=
  match env.createErr with
  | some e =>
    { ret := Except.error (Failure.returned ("failed to create file: " ++ path ++ ": " ++ e))
      created := false, written := [] }
  | none =>
    match buildRecords heap modules with
    | Except.error f => { ret := Except.error f, created := true, written := [] }
    | Except.ok final =>
      match env.writeErr 0 with
      | some e =>
        { ret := Except.error (Failure.returned ("faild to write headers to csv: " ++ e))
          created := true, written := [] }
      | none =>
        match writeRows env 1 (final.map Record.ToRow) [headers] with
        | (some e, rows) =>
          { ret := Except.error (Failure.returned ("failed to write to csv: " ++ e))
            created := true, written := rows }
        | (none, rows) => { ret := Except.ok (), created := true, written := rows }

/-- The module path under which `Close` files the entry `e`. -/
def pathOf (heap : Heap) (e : Ptr × Outcome) : String := (heap e.1).Path

/-- The entry that the two maps `index` and `licenses` hold for the key `k`
after the first loop: the last entry, in iteration order, whose path is `k`. -/
def retained (heap : Heap) : Modules → String → Option (Ptr × Outcome)
  | [], _ => none
  | e :: es, k =>
    match retained heap es k with
    | some x => some x
    | none => if k = pathOf heap e then some e else none

/-- The record, or the failure, that the type switch yields for an entry. -/
def recordOf (heap : Heap) (e : Ptr × Outcome) : Except Failure Record :=
  match e.2 with
  | Outcome.err _ =>
    Except.ok
      { Dependency := (heap e.1).Path, Version := (heap e.1).Version
        SPDX := "NOT-FOUND", License := "not found" }
  | Outcome.lic (some l) =>
    Except.ok
      { Dependency := (heap e.1).Path, Version := (heap e.1).Version
        SPDX := l.SPDX, License := l.Name }
  | Outcome.lic none =>
    Except.ok
      { Dependency := (heap e.1).Path, Version := (heap e.1).Version
        SPDX := "NOT-FOUND", License := "not-found" }
  | Outcome.other ty => Except.error (Failure.returned ("unexpected license type: " ++ ty))

/-- An outcome that the type switch accepts: an error or a license. -/
def Outcome.known : Outcome → Bool
  | Outcome.err _ => true
  | Outcome.lic _ => true
  | Outcome.other _ => false

/-- The heap of the scenario of the specification: address `1` holds
`zlib 1.2`, every other address `alpha 0.1`. -/
def demoHeap : Heap := fun p =>
  if p = 1 then { Path := "zlib", Version := "1.2" }
  else { Path := "alpha", Version := "0.1" }

/-- The store of the scenario: `zlib` resolved to MIT, `alpha` failed. -/
def demoStore : Modules :=
  [(1, Outcome.lic (some { Name := "MIT License", SPDX := "MIT" })), (2, Outcome.err "boom")]

/-- A heap in which two different modules have the path `a`: address `1`
holds `a 1`, every other address `a 2`. -/
def dupHeap : Heap := fun p =>
  if p = 1 then { Path := "a", Version := "1" } else { Path := "a", Version := "2" }

/-- A store over `dupHeap` with both modules: the first resolved to MIT, the
second failed. -/
def dupStore : Modules :=
  [(1, Outcome.lic (some { Name := "MIT License", SPDX := "MIT" })), (2, Outcome.err "boom")]

/-- A store over `dupHeap` whose first module holds an outcome of neither
kind and whose second module, of the same path, holds a license. -/
def shadowStore : Modules :=
  [(1, Outcome.other "int"), (2, Outcome.lic (some { Name := "MIT License", SPDX := "MIT" }))]

/-- A store over `demoHeap` whose only module holds a non-nil license with
empty identifier and name. -/
def blankStore : Modules := [(1, Outcome.lic (some { Name := "", SPDX := "" }))]

/-- A store over `demoHeap` whose only module, `zlib`, holds an outcome of
neither kind. -/
def badStore : Modules := [(1, Outcome.other "int")]

/-- One call `Finish(m, l, err)`: the module, the license (`none` for the nil
pointer) and the error (`none` for the nil error). -/
structure FinishCall where
  m : Ptr
  l : Option License
  err : Option String
  deriving DecidableEq, Repr

/-- The store after the calls of `Finish` in `calls`, made one after the
other on the store `modules`. -/
def finishAll (modules : Modules) (calls : List FinishCall) : Modules :=
  calls.foldl (fun s c => Finish s c.m c.l c.err) modules

/-- Reference classification of a store entry, in the words of the
specification: a lookup error gives `NOT-FOUND` / `not found`, a nil license
`NOT-FOUND` / `not-found`, a non-nil license its SPDX identifier and name; an
outcome of another kind has no record. -/
def refClassify (heap : Heap) (e : Ptr × Outcome) : Option Record :=
  match e.2 with
  | Outcome.err _ =>
    some ⟨(heap e.1).Path, (heap e.1).Version, "NOT-FOUND", "not found"⟩
  | Outcome.lic none =>
    some ⟨(heap e.1).Path, (heap e.1).Version, "NOT-FOUND", "not-found"⟩
  | Outcome.lic (some l) =>
    some ⟨(heap e.1).Path, (heap e.1).Version, l.SPDX, l.Name⟩
  | Outcome.other _ => none

/-- The entries of the store sorted by module path. -/
def sortEntries (heap : Heap) (modules : Modules) : Modules :=
  modules.insertionSort (fun a b => StrLe (heap a.1).Path (heap b.1).Path)

/-- Reference record list, in the words of the specification: sort the entries
by module path, then classify each entry. -/
def referenceRecords (heap : Heap) (modules : Modules) : List Record :=
  (sortEntries heap modules).filterMap (refClassify heap)

/-- A store over `dupHeap` whose first module holds a nil license and whose
second module, of the same path, holds an error. -/
def nilShadowStore : Modules := [(1, Outcome.lic none), (2, Outcome.err "boom")]

/-- The store over `dupHeap` after `a 1` was resolved to MIT and `a 2` was
finished with both a license and an error. -/
def bothStore : Modules :=
  Finish [(1, Outcome.lic (some { Name := "MIT License", SPDX := "MIT" }))] 2
    (some { Name := "Apache License 2.0", SPDX := "Apache-2.0" }) (some "boom")

/-- An environment in which creating and writing succeed and the deferred
flush fails. -/
def flushFailEnv : FileEnv :=
  { createErr := none, writeErr := fun _ => none, flushErr := some "disk full" }

/-- Three calls of `Finish`: `zlib` resolved to MIT, `alpha` finished with both
a license and an error, then `zlib` finished again with neither. -/
def demoCalls : List FinishCall :=
  [ { m := 1, l := some { Name := "MIT License", SPDX := "MIT" }, err := none },
    { m := 2, l := some { Name := "MIT License", SPDX := "MIT" }, err := some "boom" },
    { m := 1, l := none, err := none } ]

/-! ## The order on strings -/

theorem lexLe_total : ∀ a b : List Nat, lexLe a b = true ∨ lexLe b a = true
  | [], _ => Or.inl rfl
  | _ :: _, [] => Or.inr rfl
  | a :: as, b :: bs => by
    rcases Nat.lt_trichotomy a b with h | h | h
    · left; simp [lexLe, h]
    · subst h
      rcases lexLe_total as bs with h | h
      · left; simp [lexLe, h]
      · right; simp [lexLe, h]
    · right; simp [lexLe, h]

theorem lexLe_trans : ∀ a b c : List Nat, lexLe a b = true → lexLe b c = true →
    lexLe a c = true
  | [], _, _ => fun _ _ => rfl
  | _ :: _, [], _ => fun h _ => by simp [lexLe] at h
  | _ :: _, _ :: _, [] => fun _ h => by simp [lexLe] at h
  | a :: as, b :: bs, c :: cs => fun hab hbc => by
    simp only [lexLe, Bool.or_eq_true, Bool.and_eq_true, decide_eq_true_eq, beq_iff_eq] at *
    rcases hab with h1 | ⟨h1, h1'⟩ <;> rcases hbc with h2 | ⟨h2, h2'⟩
    · left; omega
    · left; omega
    · left; omega
    · right; exact ⟨by omega, lexLe_trans as bs cs h1' h2'⟩

theorem lexLe_antisymm : ∀ a b : List Nat, lexLe a b = true → lexLe b a = true → a = b
  | [], [] => fun _ _ => rfl
  | [], _ :: _ => fun _ h => by simp [lexLe] at h
  | _ :: _, [] => fun h _ => by simp [lexLe] at h
  | a :: as, b :: bs => fun hab hba => by
    simp only [lexLe, Bool.or_eq_true, Bool.and_eq_true, decide_eq_true_eq, beq_iff_eq] at *
    rcases hab with h1 | ⟨h1, h1'⟩ <;> rcases hba with h2 | ⟨h2, h2'⟩
    · omega
    · omega
    · omega
    · rw [h1, lexLe_antisymm as bs h1' h2']

theorem codes_injective (a b : String) (h : codes a = codes b) : a = b := by
  have hinj : Function.Injective Char.toNat := by
    intro x y hxy
    apply Char.ext
    apply UInt32.ext
    exact hxy
  have := List.map_injective_iff.2 hinj h
  exact String.ext this

theorem StrLe_total (a b : String) : StrLe a b ∨ StrLe b a := lexLe_total _ _

theorem StrLe_trans (a b c : String) (h1 : StrLe a b) (h2 : StrLe b c) : StrLe a c :=
  lexLe_trans _ _ _ h1 h2

theorem StrLe_antisymm (a b : String) (h1 : StrLe a b) (h2 : StrLe b a) : a = b :=
  codes_injective a b (lexLe_antisymm _ _ h1 h2)

theorem sortStrings_sorted (ks : List String) : List.Sorted StrLe (sortStrings ks) := by
  haveI : IsTotal String StrLe := ⟨StrLe_total⟩
  haveI : IsTrans String StrLe := ⟨StrLe_trans⟩
  exact List.sorted_insertionSort StrLe ks

theorem sortStrings_perm (ks : List String) : (sortStrings ks).Perm ks :=
  List.perm_insertionSort StrLe ks

theorem sortStrings_congr {ks ks' : List String} (h : ks.Perm ks') :
    sortStrings ks = sortStrings ks' := by
  haveI : IsAntisymm String StrLe := ⟨StrLe_antisymm⟩
  exact List.eq_of_perm_of_sorted
    (((sortStrings_perm ks).trans h).trans (sortStrings_perm ks').symm)
    (sortStrings_sorted ks) (sortStrings_sorted ks')

/-! ## The first loop: what the tables hold -/

theorem foldl_step_keys (heap : Heap) (es : Modules) (t : Tables) :
    (es.foldl (Tables.step heap) t).keys = t.keys ++ es.map (pathOf heap) := by
  induction es generalizing t with
  | nil => simp
  | cons e es ih => simp [List.foldl_cons, ih, Tables.step, pathOf]

theorem foldl_step_licenses (heap : Heap) (es : Modules) (t : Tables) (k : String) :
    (es.foldl (Tables.step heap) t).licenses k =
      match retained heap es k with
      | some x => some x.2
      | none => t.licenses k := by
  induction es generalizing t with
  | nil => simp [retained]
  | cons e es ih =>
    rw [List.foldl_cons, ih, retained]
    cases retained heap es k with
    | some x => rfl
    | none =>
      by_cases hk : k = pathOf heap e
      · simp [Tables.step, StrMap.set, pathOf, hk]
      · have hk' : ¬ k = (heap e.1).Path := hk
        simp [Tables.step, StrMap.set, hk, hk']

theorem foldl_step_index (heap : Heap) (es : Modules) (t : Tables) (k : String) :
    (es.foldl (Tables.step heap) t).index k =
      match retained heap es k with
      | some x => some x.1
      | none => t.index k := by
  induction es generalizing t with
  | nil => simp [retained]
  | cons e es ih =>
    rw [List.foldl_cons, ih, retained]
    cases retained heap es k with
    | some x => rfl
    | none =>
      by_cases hk : k = pathOf heap e
      · simp [Tables.step, StrMap.set, pathOf, hk]
      · have hk' : ¬ k = (heap e.1).Path := hk
        simp [Tables.step, StrMap.set, hk, hk']

theorem collect_keys (heap : Heap) (es : Modules) :
    (collect heap es).keys = es.map (pathOf heap) := by
  simp [collect, foldl_step_keys, Tables.init]

theorem collect_licenses (heap : Heap) (es : Modules) (k : String) :
    (collect heap es).licenses k = (retained heap es k).map Prod.snd := by
  rw [collect, foldl_step_licenses]
  cases retained heap es k <;> rfl

theorem collect_index (heap : Heap) (es : Modules) (k : String) :
    (collect heap es).index k = (retained heap es k).map Prod.fst := by
  rw [collect, foldl_step_index]
  cases retained heap es k <;> rfl

theorem retained_some (heap : Heap) (es : Modules) (k : String) (x : Ptr × Outcome)
    (h : retained heap es k = some x) : x ∈ es ∧ pathOf heap x = k := by
  induction es with
  | nil => simp [retained] at h
  | cons e es ih =>
    rw [retained] at h
    cases hr : retained heap es k with
    | some y =>
      rw [hr] at h
      cases h
      exact ⟨List.mem_cons_of_mem _ (ih hr).1, (ih hr).2⟩
    | none =>
      rw [hr] at h
      by_cases hk : k = pathOf heap e
      · simp [hk] at h
        subst h
        exact ⟨List.mem_cons_self _ _, hk.symm⟩
      · simp [hk] at h

theorem retained_of_mem (heap : Heap) (es : Modules) (k : String)
    (h : k ∈ es.map (pathOf heap)) : ∃ x, retained heap es k = some x := by
  induction es with
  | nil => simp at h
  | cons e es ih =>
    rw [retained]
    cases hr : retained heap es k with
    | some y => exact ⟨y, rfl⟩
    | none =>
      by_cases hk : k = pathOf heap e
      · exact ⟨e, by simp [hk]⟩
      · simp only [List.map_cons, List.mem_cons] at h
        rcases h with h | h
        · exact absurd h hk
        · obtain ⟨x, hx⟩ := ih h
          rw [hr] at hx
          cases hx

theorem retained_none (heap : Heap) (es : Modules) (k : String)
    (h : k ∉ es.map (pathOf heap)) : retained heap es k = none := by
  cases hr : retained heap es k with
  | none => rfl
  | some x =>
    obtain ⟨hx, hp⟩ := retained_some heap es k x hr
    exact absurd (hp ▸ List.mem_map_of_mem (pathOf heap) hx) h

/-- The entry after which no entry of the same path is iterated is the one
the tables hold for its path. -/
theorem retained_last (heap : Heap) (pre post : Modules) (e : Ptr × Outcome)
    (hlast : ∀ x ∈ post, pathOf heap x ≠ pathOf heap e) :
    retained heap (pre ++ e :: post) (pathOf heap e) = some e := by
  have hpost : retained heap post (pathOf heap e) = none := by
    apply retained_none
    intro hmem
    obtain ⟨x, hx, hxe⟩ := List.mem_map.1 hmem
    exact hlast x hx hxe
  induction pre with
  | nil => simp [retained, hpost]
  | cons a pre ih => simp [retained, ih]

theorem retained_perm (heap : Heap) (es es' : Modules) (hp : es.Perm es')
    (hnd : (es.map (pathOf heap)).Nodup) (k : String) :
    retained heap es k = retained heap es' k := by
  by_cases hk : k ∈ es.map (pathOf heap)
  · obtain ⟨x, hx⟩ := retained_of_mem heap es k hk
    obtain ⟨y, hy⟩ := retained_of_mem heap es' k ((hp.map _).mem_iff.1 hk)
    obtain ⟨hxm, hxp⟩ := retained_some heap es k x hx
    obtain ⟨hym, hyp⟩ := retained_some heap es' k y hy
    have hxy : x = y :=
      List.inj_on_of_nodup_map hnd hxm (hp.mem_iff.2 hym) (hxp.trans hyp.symm)
    rw [hx, hy, hxy]
  · rw [retained_none heap es k hk,
      retained_none heap es' k (fun h => hk ((hp.map _).mem_iff.2 h))]

/-! ## The second loop: the type switch, key by key -/

theorem classify_collect (heap : Heap) (es : Modules) (k : String) :
    classify heap (collect heap es) k =
      match retained heap es k with
      | some x => recordOf heap x
      | none => Except.error (Failure.returned ("unexpected license type: " ++ "<nil>")) := by
  unfold classify
  rw [collect_licenses, collect_index]
  cases retained heap es k with
  | none => rfl
  | some x =>
    obtain ⟨p, o⟩ := x
    cases o with
    | err msg => rfl
    | lic l => cases l <;> rfl
    | other ty => rfl

theorem recordOf_ok (heap : Heap) (x : Ptr × Outcome) (r : Record)
    (h : recordOf heap x = Except.ok r) :
    r.Dependency = pathOf heap x ∧ r.Version = (heap x.1).Version ∧ x.2.known = true := by
  obtain ⟨p, o⟩ := x
  cases o with
  | err msg => simp only [recordOf, Except.ok.injEq] at h; subst h; exact ⟨rfl, rfl, rfl⟩
  | lic l =>
    cases l with
    | none => simp only [recordOf, Except.ok.injEq] at h; subst h; exact ⟨rfl, rfl, rfl⟩
    | some l => simp only [recordOf, Except.ok.injEq] at h; subst h; exact ⟨rfl, rfl, rfl⟩
  | other ty => simp [recordOf] at h

theorem recordOf_error (heap : Heap) (x : Ptr × Outcome) (f : Failure)
    (h : recordOf heap x = Except.error f) :
    ∃ ty, x.2 = Outcome.other ty ∧ f = Failure.returned ("unexpected license type: " ++ ty) := by
  obtain ⟨p, o⟩ := x
  cases o with
  | err msg => simp [recordOf] at h
  | lic l => cases l <;> simp [recordOf] at h
  | other ty =>
    simp only [recordOf, Except.error.injEq] at h
    exact ⟨ty, rfl, h.symm⟩

theorem recordOf_known (heap : Heap) (x : Ptr × Outcome) (h : x.2.known = true) :
    ∃ r, recordOf heap x = Except.ok r := by
  obtain ⟨p, o⟩ := x
  cases o with
  | err msg => exact ⟨_, rfl⟩
  | lic l => cases l <;> exact ⟨_, rfl⟩
  | other ty => simp [Outcome.known] at h

theorem classifyAll_ok (heap : Heap) (t : Tables) (ks : List String) (rs : List Record)
    (h : classifyAll heap t ks = Except.ok rs) :
    List.Forall₂ (fun k r => classify heap t k = Except.ok r) ks rs := by
  induction ks generalizing rs with
  | nil =>
    simp only [classifyAll, Except.ok.injEq] at h
    subst h
    exact List.Forall₂.nil
  | cons k ks ih =>
    rw [classifyAll] at h
    cases hc : classify heap t k with
    | error e => rw [hc] at h; cases h
    | ok r =>
      rw [hc] at h
      cases ha : classifyAll heap t ks with
      | error e => rw [ha] at h; cases h
      | ok rs' =>
        rw [ha] at h
        simp only [Except.ok.injEq] at h
        subst h
        exact List.Forall₂.cons hc (ih rs' ha)

theorem classifyAll_error (heap : Heap) (t : Tables) (ks : List String) (f : Failure)
    (h : classifyAll heap t ks = Except.error f) :
    ∃ k ∈ ks, classify heap t k = Except.error f := by
  induction ks with
  | nil => simp [classifyAll] at h
  | cons k ks ih =>
    rw [classifyAll] at h
    cases hc : classify heap t k with
    | error e =>
      rw [hc] at h
      simp only [Except.error.injEq] at h
      subst h
      exact ⟨k, List.mem_cons_self _ _, hc⟩
    | ok r =>
      rw [hc] at h
      cases ha : classifyAll heap t ks with
      | error e =>
        rw [ha] at h
        simp only [Except.error.injEq] at h
        subst h
        obtain ⟨k', hk', hc'⟩ := ih ha
        exact ⟨k', List.mem_cons_of_mem _ hk', hc'⟩
      | ok rs' => rw [ha] at h; cases h

theorem classifyAll_fails (heap : Heap) (t : Tables) (ks : List String) (k : String)
    (f : Failure) (hk : k ∈ ks) (hc : classify heap t k = Except.error f) :
    ∃ g, classifyAll heap t ks = Except.error g := by
  cases h : classifyAll heap t ks with
  | error g => exact ⟨g, rfl⟩
  | ok rs =>
    exfalso
    have h2 := classifyAll_ok heap t ks rs h
    clear h
    induction h2 with
    | nil => simp at hk
    | cons hkr _ ih =>
      rcases List.mem_cons.1 hk with hk | hk
      · subst hk
        rw [hc] at hkr
        cases hkr
      · exact ih hk

theorem classifyAll_total (heap : Heap) (t : Tables) (ks : List String)
    (h : ∀ k ∈ ks, ∃ r, classify heap t k = Except.ok r) :
    ∃ rs, classifyAll heap t ks = Except.ok rs := by
  cases hc : classifyAll heap t ks with
  | ok rs => exact ⟨rs, rfl⟩
  | error f =>
    obtain ⟨k, hk, hkf⟩ := classifyAll_error heap t ks f hc
    obtain ⟨r, hr⟩ := h k hk
    rw [hr] at hkf
    cases hkf

/-- The keys that the second loop visits: the sorted paths of the entries. -/
theorem sorted_keys (heap : Heap) (es : Modules) :
    sortStrings (collect heap es).keys = sortStrings (es.map (pathOf heap)) := by
  rw [collect_keys]

/-- When the loop completes, every key got the record of the entry the tables
hold for it. -/
theorem buildRecords_ok (heap : Heap) (es : Modules) (rs : List Record)
    (h : buildRecords heap es = Except.ok rs) :
    List.Forall₂ (fun k r => ∃ x, retained heap es k = some x ∧ recordOf heap x = Except.ok r)
      (sortStrings (es.map (pathOf heap))) rs := by
  have h1 := classifyAll_ok heap (collect heap es) _ rs h
  rw [sorted_keys] at h1
  refine h1.imp ?_
  intro k r hkr
  rw [classify_collect] at hkr
  cases hr : retained heap es k with
  | none => rw [hr] at hkr; cases hkr
  | some x => rw [hr] at hkr; exact ⟨x, rfl, hkr⟩

/-- When the loop stops early, it is at an entry of neither kind, and the
failure is the returned error naming the dynamic type of its outcome. -/
theorem buildRecords_error (heap : Heap) (es : Modules) (f : Failure)
    (h : buildRecords heap es = Except.error f) :
    ∃ p ty, (p, Outcome.other ty) ∈ es ∧
      f = Failure.returned ("unexpected license type: " ++ ty) := by
  obtain ⟨k, hk, hc⟩ := classifyAll_error heap (collect heap es) _ f h
  rw [sorted_keys] at hk
  have hk' : k ∈ es.map (pathOf heap) := (sortStrings_perm _).mem_iff.1 hk
  obtain ⟨x, hx⟩ := retained_of_mem heap es k hk'
  rw [classify_collect, hx] at hc
  obtain ⟨ty, hty, hf⟩ := recordOf_error heap x f hc
  obtain ⟨p, o⟩ := x
  simp only at hty
  subst hty
  exact ⟨p, ty, (retained_some heap es k _ hx).1, hf⟩

/-- An entry of neither kind that the tables hold for its path stops the loop. -/
theorem buildRecords_fails (heap : Heap) (pre post : Modules) (p : Ptr) (ty : String)
    (hlast : ∀ x ∈ post, pathOf heap x ≠ (heap p).Path) :
    ∃ f, buildRecords heap (pre ++ (p, Outcome.other ty) :: post) = Except.error f := by
  have hr := retained_last heap pre post (p, Outcome.other ty) hlast
  apply classifyAll_fails heap _ _ (heap p).Path
    (Failure.returned ("unexpected license type: " ++ ty))
  · rw [sorted_keys]
    apply (sortStrings_perm _).mem_iff.2
    simp [pathOf]
  · rw [classify_collect]
    have hr' : retained heap (pre ++ (p, Outcome.other ty) :: post) (heap p).Path =
        some (p, Outcome.other ty) := hr
    rw [hr']
    rfl

/-- When every outcome is an error or a license, the loop completes. -/
theorem buildRecords_total (heap : Heap) (es : Modules)
    (h : ∀ e ∈ es, e.2.known = true) : ∃ rs, buildRecords heap es = Except.ok rs := by
  apply classifyAll_total
  intro k hk
  rw [sorted_keys] at hk
  have hk' : k ∈ es.map (pathOf heap) := (sortStrings_perm _).mem_iff.1 hk
  obtain ⟨x, hx⟩ := retained_of_mem heap es k hk'
  rw [classify_collect, hx]
  exact recordOf_known heap x (h x (retained_some heap es k x hx).1)

/-! ## The file operations -/

theorem writeRows_ok (env : FileEnv) (hwrite : ∀ n, env.writeErr n = none)
    (rows : List (List String)) (n : Nat) (acc : List (List String)) :
    writeRows env n rows acc = (none, acc ++ rows) := by
  induction rows generalizing n acc with
  | nil => simp [writeRows]
  | cons row rest ih => simp [writeRows, hwrite, ih]

/-- Without a failing file operation, `Close` returns the failure of the
record loop, or `nil` after writing the header and every row. -/
theorem Close_ok_env (heap : Heap) (path : String) (env : FileEnv) (modules : Modules)
    (hcreate : env.createErr = none) (hwrite : ∀ n, env.writeErr n = none) :
    Close heap path env modules =
      match buildRecords heap modules with
      | Except.error f => { ret := Except.error f, created := true, written := [] }
      | Except.ok final =>
        { ret := Except.ok (), created := true
          written := [headers] ++ final.map Record.ToRow } := by
  unfold Close
  rw [hcreate]
  cases buildRecords heap modules with
  | error f => rfl
  | ok final => simp [hwrite, writeRows_ok env hwrite]

/-- When the record loop fails, `Close` hands no row to the writer. -/
theorem Close_build_error (heap : Heap) (path : String) (env : FileEnv) (modules : Modules)
    (f : Failure) (h : buildRecords heap modules = Except.error f) :
    (Close heap path env modules).ret ≠ Except.ok () ∧
      (Close heap path env modules).written = [] ∧
      (Close heap path env modules).created = env.createErr.isNone := by
  unfold Close
  cases env.createErr with
  | some e => simp
  | none => simp [h]

theorem classifyAll_congr (heap : Heap) (t t' : Tables) (ks : List String)
    (h : ∀ k, classify heap t k = classify heap t' k) :
    classifyAll heap t ks = classifyAll heap t' ks := by
  induction ks with
  | nil => rfl
  | cons k ks ih => simp [classifyAll, h, ih]

theorem countP_of_forall₂ {R : String → Record → Prop} (P : Record → Bool) (k0 : String)
    (ks : List String) (rs : List Record) (h : List.Forall₂ R ks rs)
    (hR : ∀ k r, R k r → (P r = true ↔ k = k0)) : rs.countP P = ks.count k0 := by
  induction h with
  | nil => rfl
  | @cons k r ks rs hkr _ ih =>
    rw [List.countP_cons, List.count_cons, ih]
    by_cases hk : k = k0
    · have := (hR k r hkr).2 hk
      simp [this, hk]
    · have : ¬ P r = true := fun hp => hk ((hR k r hkr).1 hp)
      simp [this, hk]

theorem count_path_unshared (heap : Heap) (modules : Modules) (p : Ptr) (o : Outcome)
    (hnodup : (modules.map Prod.fst).Nodup) (hmem : (p, o) ∈ modules)
    (hunshared : ∀ e ∈ modules, (heap e.1).Path = (heap p).Path → e.1 = p) :
    (modules.map (pathOf heap)).count (heap p).Path = 1 := by
  have h1 : (modules.map Prod.fst).count p = 1 :=
    List.count_eq_one_of_mem hnodup (List.mem_map_of_mem Prod.fst hmem)
  rw [← h1, List.count, List.count, List.countP_map, List.countP_map]
  apply List.countP_congr
  intro e he
  simp only [Function.comp, beq_iff_eq, pathOf]
  constructor
  · exact hunshared e he
  · intro h; rw [h]

theorem forall₂_of_mem {R : String → Record → Prop} (ks : List String) (rs : List Record)
    (h : List.Forall₂ R ks rs) (k : String) (hk : k ∈ ks) : ∃ r ∈ rs, R k r := by
  induction h with
  | nil => simp at hk
  | @cons k' r ks rs hkr _ ih =>
    rcases List.mem_cons.1 hk with hk | hk
    · subst hk
      exact ⟨r, List.mem_cons_self _ _, hkr⟩
    · obtain ⟨r', hr', hR⟩ := ih hk
      exact ⟨r', List.mem_cons_of_mem _ hr', hR⟩

/-- The entry after which no entry of the same path is iterated gets its
record: the type switch yields it at the entry's path, and it is among the
records built. -/
theorem retained_record (heap : Heap) (pre post : Modules) (e : Ptr × Outcome) (r : Record)
    (hlast : ∀ x ∈ post, pathOf heap x ≠ pathOf heap e)
    (hr : recordOf heap e = Except.ok r) :
    classify heap (collect heap (pre ++ e :: post)) (pathOf heap e) = Except.ok r ∧
      ∀ rs, buildRecords heap (pre ++ e :: post) = Except.ok rs → r ∈ rs := by
  have hret := retained_last heap pre post e hlast
  refine ⟨by rw [classify_collect, hret]; exact hr, ?_⟩
  intro rs hrs
  have hf := buildRecords_ok heap _ rs hrs
  have hk : pathOf heap e ∈ sortStrings ((pre ++ e :: post).map (pathOf heap)) := by
    apply (sortStrings_perm _).mem_iff.2
    simp
  obtain ⟨r', hr', x, hx, hxr⟩ := forall₂_of_mem _ rs hf _ hk
  rw [hret] at hx
  cases hx
  rw [hr] at hxr
  cases hxr
  exact hr'

/-! ## The claims -/

/-- C1, as stated, fails: in a store whose two modules `a 1` and `a 2` share
the path `a`, the records built are both for `a 2`; the module `a 1` has no
record and the module `a 2` has two. -/
theorem shared_path_module_omitted :
    (dupStore.map Prod.fst).Nodup ∧
    ∃ rs, buildRecords dupHeap dupStore = Except.ok rs ∧
      rs.countP (fun r => decide (r.Dependency = (dupHeap 1).Path ∧
        r.Version = (dupHeap 1).Version)) = 0 ∧
      rs.countP (fun r => decide (r.Dependency = (dupHeap 2).Path ∧
        r.Version = (dupHeap 2).Version)) = 2 := by
  refine ⟨by decide, _, rfl, by decide, by decide⟩

/-- C1 (amended): for every store and every module in it whose path no other
module of the store has, the records built by `Close` contain exactly one
record with `Dependency` the module's path and `Version` its version. -/
theorem unshared_module_has_one_record (heap : Heap) (modules : Modules) (rs : List Record)
    (p : Ptr) (o : Outcome)
    (hnodup : (modules.map Prod.fst).Nodup)
    (hmem : (p, o) ∈ modules)
    (hunshared : ∀ e ∈ modules, (heap e.1).Path = (heap p).Path → e.1 = p)
    (hbuilt : buildRecords heap modules = Except.ok rs) :
    rs.countP (fun r => decide (r.Dependency = (heap p).Path ∧
      r.Version = (heap p).Version)) = 1 := by
  have hf := buildRecords_ok heap modules rs hbuilt
  rw [countP_of_forall₂ _ (heap p).Path _ rs hf, (sortStrings_perm _).count_eq,
    count_path_unshared heap modules p o hnodup hmem hunshared]
  rintro k r ⟨x, hx, hr⟩
  obtain ⟨hdep, hver, _⟩ := recordOf_ok heap x r hr
  obtain ⟨hxm, hxp⟩ := retained_some heap modules k x hx
  rw [hxp] at hdep
  simp only [decide_eq_true_eq]
  constructor
  · rintro ⟨h, _⟩
    rw [← hdep, h]
  · intro hk
    have hxe : x.1 = p := hunshared x hxm (by rw [← hk, ← hxp]; rfl)
    rw [hdep, hver, hxe, hk]
    exact ⟨rfl, rfl⟩

theorem unshared_module_has_one_record_witness :
    List.countP (fun r : Record => decide (r.Dependency = (demoHeap 1).Path ∧
      r.Version = (demoHeap 1).Version))
      [⟨"alpha", "0.1", "NOT-FOUND", "not found"⟩, ⟨"zlib", "1.2", "MIT", "MIT License"⟩] = 1 :=
  unshared_module_has_one_record demoHeap demoStore _ 1
    (Outcome.lic (some { Name := "MIT License", SPDX := "MIT" }))
    (by decide) (by decide) (by decide) rfl

/-- C2: whenever `Close` builds its records, their `Dependency` fields are in
ascending order of the string comparison. -/
theorem records_sorted_by_dependency (heap : Heap) (modules : Modules) (rs : List Record)
    (hbuilt : buildRecords heap modules = Except.ok rs) :
    List.Sorted StrLe (rs.map Record.Dependency) := by
  have hf := buildRecords_ok heap modules rs hbuilt
  have hmap : rs.map Record.Dependency = sortStrings (modules.map (pathOf heap)) := by
    clear hbuilt
    generalize sortStrings (modules.map (pathOf heap)) = ks at hf
    induction hf with
    | nil => rfl
    | @cons k r ks rs hkr _ ih =>
      obtain ⟨x, hx, hr⟩ := hkr
      rw [List.map_cons, ih, (recordOf_ok heap x r hr).1,
        (retained_some heap modules k x hx).2]
  rw [hmap]
  exact sortStrings_sorted _

theorem records_sorted_by_dependency_witness :
    buildRecords demoHeap demoStore = Except.ok
      [⟨"alpha", "0.1", "NOT-FOUND", "not found"⟩, ⟨"zlib", "1.2", "MIT", "MIT License"⟩] ∧
    List.Sorted StrLe (List.map Record.Dependency
      [⟨"alpha", "0.1", "NOT-FOUND", "not found"⟩, ⟨"zlib", "1.2", "MIT", "MIT License"⟩]) :=
  ⟨rfl, records_sorted_by_dependency demoHeap demoStore _ rfl⟩

/-- C3: for a store whose outcomes are all licenses or errors, `Close` builds
its records, and as many of them as the store has entries. -/
theorem record_count_eq_store_size (heap : Heap) (modules : Modules)
    (hknown : ∀ e ∈ modules, e.2.known = true) :
    ∃ rs, buildRecords heap modules = Except.ok rs ∧ rs.length = modules.length := by
  obtain ⟨rs, hrs⟩ := buildRecords_total heap modules hknown
  refine ⟨rs, hrs, ?_⟩
  have hf := buildRecords_ok heap modules rs hrs
  rw [← hf.length_eq, (sortStrings_perm _).length_eq, List.length_map]

theorem record_count_eq_store_size_witness :
    ∃ rs, buildRecords dupHeap dupStore = Except.ok rs ∧ rs.length = dupStore.length :=
  record_count_eq_store_size dupHeap dupStore (by decide)

/-- C4, as stated, fails: the two enumerations of a store whose modules `a 1`
and `a 2` share the path `a` give different record sequences. -/
theorem shared_path_order_dependent :
    (dupStore.map Prod.fst).Nodup ∧ dupStore.Perm dupStore.reverse ∧
    buildRecords dupHeap dupStore ≠ buildRecords dupHeap dupStore.reverse := by
  refine ⟨by decide, List.reverse_perm _ |>.symm, by decide⟩

/-- C4 (amended): for a store whose modules have pairwise distinct paths, any
two enumerations of the entries give the same records, or the same failure,
and the same result of `Close`. -/
theorem close_order_independent (heap : Heap) (path : String) (env : FileEnv)
    (modules modules' : Modules) (hperm : modules.Perm modules')
    (hdistinct : (modules.map (fun e => (heap e.1).Path)).Nodup) :
    buildRecords heap modules = buildRecords heap modules' ∧
      Close heap path env modules = Close heap path env modules' := by
  have hb : buildRecords heap modules = buildRecords heap modules' := by
    unfold buildRecords
    simp only
    rw [sorted_keys, sorted_keys, sortStrings_congr (hperm.map (pathOf heap))]
    apply classifyAll_congr
    intro k
    rw [classify_collect, classify_collect, retained_perm heap modules modules' hperm hdistinct]
  exact ⟨hb, by unfold Close; rw [hb]⟩

theorem close_order_independent_witness :
    buildRecords demoHeap demoStore = buildRecords demoHeap demoStore.reverse ∧
      Close demoHeap "out.csv" FileEnv.ok demoStore =
        Close demoHeap "out.csv" FileEnv.ok demoStore.reverse :=
  close_order_independent demoHeap "out.csv" FileEnv.ok demoStore demoStore.reverse
    (List.reverse_perm _).symm (by decide)

/-- C5, as stated, fails: in a store whose modules `a 1` and `a 2` share the
path `a`, the module `a 2` holds a lookup error and is iterated first; both
records built are for `a 1` with its MIT license, and no record has `SPDX`
`NOT-FOUND`. -/
theorem shadowed_error_outcome_unreported :
    (dupStore.reverse.map Prod.fst).Nodup ∧
      (2, Outcome.err "boom") ∈ dupStore.reverse ∧
      buildRecords dupHeap dupStore.reverse = Except.ok
        [⟨"a", "1", "MIT", "MIT License"⟩, ⟨"a", "1", "MIT", "MIT License"⟩] ∧
      (⟨(dupHeap 2).Path, (dupHeap 2).Version, "NOT-FOUND", "not found"⟩ : Record) ∉
        [(⟨"a", "1", "MIT", "MIT License"⟩ : Record), ⟨"a", "1", "MIT", "MIT License"⟩] ∧
      ∀ r ∈ [(⟨"a", "1", "MIT", "MIT License"⟩ : Record), ⟨"a", "1", "MIT", "MIT License"⟩],
        r.SPDX ≠ "NOT-FOUND" := by
  refine ⟨by decide, by decide, rfl, by decide, by decide⟩

/-- C5 (amended): a module whose stored outcome is a lookup error, and which is the one
that `Close` files under its path (no entry iterated after it has the same
path), gets the record with its path and version, `SPDX` `NOT-FOUND` and
`License` `not found`: the type switch yields that record at its key, the
record is among those built, and if `Close` fails at all then on account of
another entry, whose outcome is of neither kind. -/
theorem error_outcome_record (heap : Heap) (pre post : Modules) (p : Ptr) (msg : String)
    (hlast : ∀ e ∈ post, (heap e.1).Path ≠ (heap p).Path) :
    classify heap (collect heap (pre ++ (p, Outcome.err msg) :: post)) (heap p).Path =
        Except.ok ⟨(heap p).Path, (heap p).Version, "NOT-FOUND", "not found"⟩ ∧
      (∀ rs, buildRecords heap (pre ++ (p, Outcome.err msg) :: post) = Except.ok rs →
        (⟨(heap p).Path, (heap p).Version, "NOT-FOUND", "not found"⟩ : Record) ∈ rs) ∧
      (∀ f, buildRecords heap (pre ++ (p, Outcome.err msg) :: post) = Except.error f →
        ∃ q ty, (q, Outcome.other ty) ∈ pre ++ post) := by
  obtain ⟨h1, h2⟩ := retained_record heap pre post (p, Outcome.err msg) _ hlast rfl
  refine ⟨h1, h2, ?_⟩
  intro f hf
  obtain ⟨q, ty, hq, _⟩ := buildRecords_error heap _ f hf
  refine ⟨q, ty, ?_⟩
  simp only [List.mem_append, List.mem_cons, Prod.mk.injEq, reduceCtorEq, and_false,
    false_or] at hq
  exact List.mem_append.2 hq

theorem error_outcome_record_witness :
    classify demoHeap (collect demoHeap demoStore) "alpha" =
      Except.ok ⟨"alpha", "0.1", "NOT-FOUND", "not found"⟩ :=
  (error_outcome_record demoHeap
    [(1, Outcome.lic (some { Name := "MIT License", SPDX := "MIT" }))] [] 2 "boom"
    (by simp)).1

/-- C6, as stated, fails: in a store whose modules `a 1` and `a 2` share the
path `a`, the module `a 1` holds the license MIT / MIT License and is iterated
first; both records built are for `a 2` with `NOT-FOUND` / `not found`, and no
record carries the license. -/
theorem shadowed_license_outcome_unreported :
    (dupStore.map Prod.fst).Nodup ∧
      (1, Outcome.lic (some { Name := "MIT License", SPDX := "MIT" })) ∈ dupStore ∧
      buildRecords dupHeap dupStore = Except.ok
        [⟨"a", "2", "NOT-FOUND", "not found"⟩, ⟨"a", "2", "NOT-FOUND", "not found"⟩] ∧
      (⟨(dupHeap 1).Path, (dupHeap 1).Version, "MIT", "MIT License"⟩ : Record) ∉
        [(⟨"a", "2", "NOT-FOUND", "not found"⟩ : Record),
          ⟨"a", "2", "NOT-FOUND", "not found"⟩] ∧
      ∀ r ∈ [(⟨"a", "2", "NOT-FOUND", "not found"⟩ : Record),
          ⟨"a", "2", "NOT-FOUND", "not found"⟩],
        r.SPDX ≠ "MIT" ∧ r.License ≠ "MIT License" := by
  refine ⟨by decide, by decide, rfl, by decide, by decide⟩

/-- C6 (amended): a module whose stored outcome is a non-nil license with identifier `s`
and name `n`, and which is the one that `Close` files under its path (no entry
iterated after it has the same path), gets the record with its path and
version, `SPDX` `s` and `License` `n`. -/
theorem license_outcome_record (heap : Heap) (pre post : Modules) (p : Ptr) (s n : String)
    (hlast : ∀ e ∈ post, (heap e.1).Path ≠ (heap p).Path) :
    classify heap
        (collect heap (pre ++ (p, Outcome.lic (some { Name := n, SPDX := s })) :: post))
        (heap p).Path =
        Except.ok ⟨(heap p).Path, (heap p).Version, s, n⟩ ∧
      ∀ rs, buildRecords heap
          (pre ++ (p, Outcome.lic (some { Name := n, SPDX := s })) :: post) = Except.ok rs →
        (⟨(heap p).Path, (heap p).Version, s, n⟩ : Record) ∈ rs :=
  retained_record heap pre post (p, Outcome.lic (some { Name := n, SPDX := s })) _ hlast rfl

theorem license_outcome_record_witness :
    classify demoHeap (collect demoHeap demoStore) "zlib" =
      Except.ok ⟨"zlib", "1.2", "MIT", "MIT License"⟩ :=
  (license_outcome_record demoHeap [] [(2, Outcome.err "boom")] 1 "MIT" "MIT License"
    (by decide)).1

/-- C7, as stated, fails twice: a non-nil license whose identifier and name are
both empty yields a record with empty `SPDX` and `License`, not `NOT-FOUND`
and `not-found`; and a module `a 1` with a nil license, iterated before a
module `a 2` of the same path that holds an error, gets no record: both
records are for `a 2`, with `License` `not found`. -/
theorem blank_license_kept_verbatim :
    buildRecords demoHeap blankStore = Except.ok [⟨"zlib", "1.2", "", ""⟩] ∧
      ¬ ((⟨"zlib", "1.2", "", ""⟩ : Record).SPDX = "NOT-FOUND") ∧
      ¬ ((⟨"zlib", "1.2", "", ""⟩ : Record).License = "not-found") ∧
      (nilShadowStore.map Prod.fst).Nodup ∧
      (1, Outcome.lic none) ∈ nilShadowStore ∧
      buildRecords dupHeap nilShadowStore = Except.ok
        [⟨"a", "2", "NOT-FOUND", "not found"⟩, ⟨"a", "2", "NOT-FOUND", "not found"⟩] ∧
      ∀ r ∈ [(⟨"a", "2", "NOT-FOUND", "not found"⟩ : Record),
          ⟨"a", "2", "NOT-FOUND", "not found"⟩],
        r.License ≠ "not-found" := by
  refine ⟨rfl, by decide, by decide, by decide, by decide, rfl, by decide⟩

/-- C7 (amended): a module whose stored outcome is a nil license, and which is
the one that `Close` files under its path (no entry iterated after it has the
same path), gets the record with its path and version, `SPDX` `NOT-FOUND` and
`License` `not-found`. -/
theorem nil_license_record (heap : Heap) (pre post : Modules) (p : Ptr)
    (hlast : ∀ e ∈ post, (heap e.1).Path ≠ (heap p).Path) :
    classify heap (collect heap (pre ++ (p, Outcome.lic none) :: post)) (heap p).Path =
        Except.ok ⟨(heap p).Path, (heap p).Version, "NOT-FOUND", "not-found"⟩ ∧
      ∀ rs, buildRecords heap (pre ++ (p, Outcome.lic none) :: post) = Except.ok rs →
        (⟨(heap p).Path, (heap p).Version, "NOT-FOUND", "not-found"⟩ : Record) ∈ rs :=
  retained_record heap pre post (p, Outcome.lic none) _ hlast rfl

theorem nil_license_record_witness :
    classify demoHeap (collect demoHeap [(1, Outcome.lic none), (2, Outcome.err "boom")])
        "zlib" =
      Except.ok ⟨"zlib", "1.2", "NOT-FOUND", "not-found"⟩ :=
  (nil_license_record demoHeap [] [(2, Outcome.err "boom")] 1 (by decide)).1

/-- C8, as stated, fails: a store holds an outcome of neither kind for the
module `a 1`, yet `Close` returns `nil`, having written two rows for the
module `a 2` of the same path and none for `a 1`. -/
theorem shadowed_unknown_outcome_skipped :
    (shadowStore.map Prod.fst).Nodup ∧ (1, Outcome.other "int") ∈ shadowStore ∧
      Close dupHeap "out.csv" FileEnv.ok shadowStore =
        { ret := Except.ok (), created := true
          written := [headers, ["a", "2", "MIT", "MIT License"],
            ["a", "2", "MIT", "MIT License"]] } := by
  refine ⟨by decide, by decide, rfl⟩

/-- C8 (amended): assuming no file operation fails, (1) if `Close` returns an
error then some entry holds an outcome that is neither a license nor an
error; (2) `Close` returns an error whenever such an entry is the one filed
under its path (no entry iterated after it has the same path); (3) so for a
store whose modules have pairwise distinct paths, `Close` returns an error if
and only if some entry holds such an outcome. -/
theorem close_error_iff_unknown_outcome (heap : Heap) (path : String) (env : FileEnv)
    (modules : Modules) (hcreate : env.createErr = none)
    (hwrite : ∀ n, env.writeErr n = none) :
    ((Close heap path env modules).ret ≠ Except.ok () →
        ∃ p ty, (p, Outcome.other ty) ∈ modules) ∧
      (∀ pre post p ty, modules = pre ++ (p, Outcome.other ty) :: post →
        (∀ e ∈ post, (heap e.1).Path ≠ (heap p).Path) →
        (Close heap path env modules).ret ≠ Except.ok ()) ∧
      ((modules.map (fun e => (heap e.1).Path)).Nodup →
        ((Close heap path env modules).ret ≠ Except.ok () ↔
          ∃ p ty, (p, Outcome.other ty) ∈ modules)) := by
  have hC := Close_ok_env heap path env modules hcreate hwrite
  have h1 : (Close heap path env modules).ret ≠ Except.ok () →
      ∃ p ty, (p, Outcome.other ty) ∈ modules := by
    intro hne
    cases hb : buildRecords heap modules with
    | ok rs => rw [hC, hb] at hne; exact absurd rfl hne
    | error f =>
      obtain ⟨p, ty, hp, _⟩ := buildRecords_error heap modules f hb
      exact ⟨p, ty, hp⟩
  have h2 : ∀ pre post p ty, modules = pre ++ (p, Outcome.other ty) :: post →
      (∀ e ∈ post, (heap e.1).Path ≠ (heap p).Path) →
      (Close heap path env modules).ret ≠ Except.ok () := by
    intro pre post p ty hm hlast
    obtain ⟨f, hf⟩ := buildRecords_fails heap pre post p ty hlast
    rw [← hm] at hf
    exact (Close_build_error heap path env modules f hf).1
  refine ⟨h1, h2, fun hnd => ⟨h1, ?_⟩⟩
  rintro ⟨p, ty, hp⟩
  obtain ⟨pre, post, hm⟩ := List.append_of_mem hp
  refine h2 pre post p ty hm ?_
  intro e he heq
  rw [hm, List.map_append, List.map_cons] at hnd
  have hnd2 := (List.nodup_append.1 hnd).2.1
  rw [List.nodup_cons] at hnd2
  exact hnd2.1 (heq ▸ List.mem_map_of_mem (fun e => (heap e.1).Path) he)

theorem close_error_iff_unknown_outcome_witness :
    (Close demoHeap "out.csv" FileEnv.ok badStore).ret ≠ Except.ok () ↔
      ∃ p ty, (p, Outcome.other ty) ∈ badStore :=
  (close_error_iff_unknown_outcome demoHeap "out.csv" FileEnv.ok badStore rfl
    (fun _ => rfl)).2.2 (by decide)

/-- C9, as stated, fails: for the module `zlib` with an outcome of dynamic type
`int` the error of `Close` is `unexpected license type: int`, in which the
path `zlib` does not occur. -/
theorem close_error_omits_module_path :
    ∃ msg, (Close demoHeap "out.csv" FileEnv.ok badStore).ret =
        Except.error (Failure.returned msg) ∧
      msg = "unexpected license type: int" ∧
      ¬ ((demoHeap 1).Path.data <:+: msg.data) := by
  refine ⟨_, rfl, rfl, by decide⟩

/-- C9 (amended): when `Close` fails and no file operation failed, the error
it returns is the text `unexpected license type: ` followed by the dynamic
type of the outcome of some entry that is neither a license nor an error;
nothing of the module enters the message. -/
theorem close_error_names_dynamic_type (heap : Heap) (path : String) (env : FileEnv)
    (modules : Modules) (f : Failure) (hcreate : env.createErr = none)
    (hwrite : ∀ n, env.writeErr n = none)
    (hret : (Close heap path env modules).ret = Except.error f) :
    ∃ p ty, (p, Outcome.other ty) ∈ modules ∧
      f = Failure.returned ("unexpected license type: " ++ ty) := by
  rw [Close_ok_env heap path env modules hcreate hwrite] at hret
  cases hb : buildRecords heap modules with
  | ok rs => rw [hb] at hret; cases hret
  | error g =>
    rw [hb] at hret
    simp only [Except.error.injEq] at hret
    subst hret
    exact buildRecords_error heap modules g hb

theorem close_error_names_dynamic_type_witness :
    ∃ p ty, (p, Outcome.other ty) ∈ badStore ∧
      Failure.returned "unexpected license type: int" =
        Failure.returned ("unexpected license type: " ++ ty) :=
  close_error_names_dynamic_type demoHeap "out.csv" FileEnv.ok badStore _ rfl
    (fun _ => rfl) rfl

/-- C10, as stated, fails twice: with an outcome of neither kind for `zlib`,
`Close` fails after creating the file and before writing the header, so the
file exists and holds no row at all; and an outcome of neither kind that an
entry of the same path iterated later hides does not make `Close` fail: it
returns `nil` and record rows are written. -/
theorem unknown_outcome_leaves_empty_file :
    Close demoHeap "out.csv" FileEnv.ok badStore =
        { ret := Except.error (Failure.returned "unexpected license type: int")
          created := true, written := [] } ∧
      ¬ ((Close demoHeap "out.csv" FileEnv.ok badStore).created = false ∨
        (Close demoHeap "out.csv" FileEnv.ok badStore).written = [headers]) ∧
      (Close dupHeap "out.csv" FileEnv.ok shadowStore).ret = Except.ok () ∧
      (Close dupHeap "out.csv" FileEnv.ok shadowStore).written.length = 3 := by
  refine ⟨rfl, by decide, rfl, rfl⟩

/-- C10 (amended): when an entry holds an outcome that is neither a license
nor an error and is the one filed under its path (no entry iterated after it
has the same path), then in every environment and wherever the module stands
in sort order `Close` returns an error and hands no row to the writer, not
even the header; the file has been created exactly when `os.Create` did not
fail. -/
theorem unknown_outcome_writes_no_row (heap : Heap) (path : String) (env : FileEnv)
    (pre post : Modules) (p : Ptr) (ty : String)
    (hlast : ∀ e ∈ post, (heap e.1).Path ≠ (heap p).Path) :
    (Close heap path env (pre ++ (p, Outcome.other ty) :: post)).ret ≠ Except.ok () ∧
      (Close heap path env (pre ++ (p, Outcome.other ty) :: post)).written = [] ∧
      (Close heap path env (pre ++ (p, Outcome.other ty) :: post)).created =
        env.createErr.isNone := by
  obtain ⟨f, hf⟩ := buildRecords_fails heap pre post p ty hlast
  exact Close_build_error heap path env _ f hf

theorem unknown_outcome_writes_no_row_witness :
    (Close demoHeap "out.csv" FileEnv.ok demoStore.reverse).ret = Except.ok () ∧
    ((Close demoHeap "out.csv" FileEnv.ok
        ([(2, Outcome.err "boom")] ++ (1, Outcome.other "int") :: [])).ret ≠ Except.ok () ∧
      (Close demoHeap "out.csv" FileEnv.ok
        ([(2, Outcome.err "boom")] ++ (1, Outcome.other "int") :: [])).written = [] ∧
      (Close demoHeap "out.csv" FileEnv.ok
        ([(2, Outcome.err "boom")] ++ (1, Outcome.other "int") :: [])).created =
        FileEnv.ok.createErr.isNone) :=
  ⟨rfl, unknown_outcome_writes_no_row demoHeap "out.csv" FileEnv.ok
    [(2, Outcome.err "boom")] [] 1 "int" (by simp)⟩

/-! ## The store under `Finish` -/

theorem storeSet_storeSet (s : Modules) (m : Ptr) (a b : Outcome) :
    storeSet (storeSet s m a) m b = storeSet s m b := by
  induction s with
  | nil => simp [storeSet]
  | cons e s ih =>
    obtain ⟨p, o⟩ := e
    by_cases h : p = m
    · simp [storeSet, h]
    · simp [storeSet, h, ih]

/-- A call of `Finish` is one assignment to the store: of the error when there
is one, of the license otherwise. -/
theorem Finish_eq_storeSet (s : Modules) (m : Ptr) (l : Option License)
    (err : Option String) :
    Finish s m l err =
      storeSet s m (match err with
        | some e => Outcome.err e
        | none => Outcome.lic l) := by
  cases err with
  | none => rfl
  | some e => simp [Finish, storeSet_storeSet]

theorem storeSet_keys (s : Modules) (m : Ptr) (v : Outcome) :
    (storeSet s m v).map Prod.fst =
      if m ∈ s.map Prod.fst then s.map Prod.fst else s.map Prod.fst ++ [m] := by
  induction s with
  | nil => simp [storeSet]
  | cons e s ih =>
    obtain ⟨p, o⟩ := e
    by_cases h : p = m
    · simp [storeSet, h]
    · have h' : ¬ m = p := fun h2 => h h2.symm
      simp only [storeSet, h, if_false, List.map_cons, ih, List.mem_cons, h', false_or]
      split <;> simp

theorem storeSet_nodup (s : Modules) (m : Ptr) (v : Outcome)
    (h : (s.map Prod.fst).Nodup) : ((storeSet s m v).map Prod.fst).Nodup := by
  rw [storeSet_keys]
  split
  · exact h
  · rename_i hm
    exact List.Nodup.append h (List.nodup_singleton m) (by simpa using hm)

theorem mem_storeSet_self (s : Modules) (m : Ptr) (v : Outcome) : (m, v) ∈ storeSet s m v := by
  induction s with
  | nil => simp [storeSet]
  | cons e s ih =>
    obtain ⟨p, o⟩ := e
    by_cases h : p = m
    · simp [storeSet, h]
    · simp [storeSet, h, ih]

theorem mem_storeSet_other (s : Modules) (m : Ptr) (v : Outcome) (q : Ptr) (o : Outcome)
    (hq : q ≠ m) : (q, o) ∈ storeSet s m v ↔ (q, o) ∈ s := by
  induction s with
  | nil => simp [storeSet, hq]
  | cons e s ih =>
    obtain ⟨p, o'⟩ := e
    by_cases h : p = m
    · subst h
      simp [storeSet, hq]
    · simp [storeSet, h, ih]

theorem finishAll_append (s : Modules) (cs ds : List FinishCall) :
    finishAll s (cs ++ ds) = finishAll (finishAll s cs) ds := by
  simp [finishAll, List.foldl_append]

theorem finishAll_nodup (s : Modules) (cs : List FinishCall)
    (h : (s.map Prod.fst).Nodup) : ((finishAll s cs).map Prod.fst).Nodup := by
  induction cs generalizing s with
  | nil => exact h
  | cons c cs ih =>
    simp only [finishAll, List.foldl_cons]
    apply ih
    rw [Finish_eq_storeSet]
    exact storeSet_nodup s c.m _ h

theorem finishAll_keys (s : Modules) (cs : List FinishCall) (q : Ptr) :
    q ∈ (finishAll s cs).map Prod.fst ↔ q ∈ s.map Prod.fst ∨ q ∈ cs.map FinishCall.m := by
  induction cs generalizing s with
  | nil => simp [finishAll]
  | cons c cs ih =>
    simp only [finishAll, List.foldl_cons]
    have := ih (Finish s c.m c.l c.err)
    simp only [finishAll] at this
    rw [this, Finish_eq_storeSet, storeSet_keys]
    by_cases hm : c.m ∈ s.map Prod.fst
    · simp only [hm, if_true, List.map_cons, List.mem_cons]
      constructor
      · rintro (h | h)
        · exact Or.inl h
        · exact Or.inr (Or.inr h)
      · rintro (h | h | h)
        · exact Or.inl h
        · exact Or.inl (h ▸ hm)
        · exact Or.inr h
    · simp only [hm, if_false, List.mem_append, List.mem_singleton, List.map_cons,
        List.mem_cons]
      tauto

theorem finishAll_other (s : Modules) (cs : List FinishCall) (q : Ptr) (o : Outcome)
    (hq : ∀ c ∈ cs, c.m ≠ q) : (q, o) ∈ finishAll s cs ↔ (q, o) ∈ s := by
  induction cs generalizing s with
  | nil => simp [finishAll]
  | cons c cs ih =>
    simp only [finishAll, List.foldl_cons]
    have := ih (Finish s c.m c.l c.err) (fun d hd => hq d (List.mem_cons_of_mem _ hd))
    simp only [finishAll] at this
    rw [this, Finish_eq_storeSet]
    exact mem_storeSet_other s c.m _ q o (fun h => hq c (List.mem_cons_self _ _) h.symm)

theorem storeSet_known (s : Modules) (m : Ptr) (v : Outcome)
    (h : ∀ e ∈ s, e.2.known = true) (hv : v.known = true) :
    ∀ e ∈ storeSet s m v, e.2.known = true := by
  induction s with
  | nil =>
    intro e he
    simp only [storeSet, List.mem_singleton] at he
    rw [he]; exact hv
  | cons a s ih =>
    obtain ⟨p, o⟩ := a
    intro e he
    by_cases hp : p = m
    · simp only [storeSet, hp, if_true, List.mem_cons] at he
      rcases he with he | he
      · rw [he]; exact hv
      · exact h e (List.mem_cons_of_mem _ he)
    · simp only [storeSet, hp, if_false, List.mem_cons] at he
      rcases he with he | he
      · rw [he]; exact h (p, o) (List.mem_cons_self _ _)
      · exact ih (fun x hx => h x (List.mem_cons_of_mem _ hx)) e he

/-- Every outcome that `Finish` stores is an error or a license. -/
theorem finishAll_known (s : Modules) (cs : List FinishCall)
    (h : ∀ e ∈ s, e.2.known = true) : ∀ e ∈ finishAll s cs, e.2.known = true := by
  induction cs generalizing s with
  | nil => exact h
  | cons c cs ih =>
    simp only [finishAll, List.foldl_cons]
    apply ih
    rw [Finish_eq_storeSet]
    apply storeSet_known s c.m _ h
    cases c.err <;> rfl

theorem eq_of_mem_nodup_keys (s : Modules) (h : (s.map Prod.fst).Nodup) (q : Ptr)
    (a b : Outcome) (ha : (q, a) ∈ s) (hb : (q, b) ∈ s) : a = b := by
  have := List.inj_on_of_nodup_map h ha hb rfl
  exact (Prod.mk.inj this).2

theorem mem_storeSet_same (s : Modules) (m : Ptr) (v : Outcome)
    (h : (s.map Prod.fst).Nodup) (o : Outcome) : (m, o) ∈ storeSet s m v ↔ o = v := by
  constructor
  · intro ho
    exact eq_of_mem_nodup_keys _ (storeSet_nodup s m v h) m o v ho (mem_storeSet_self s m v)
  · intro ho
    rw [ho]
    exact mem_storeSet_self s m v

theorem retained_unique (heap : Heap) (es : Modules) (e : Ptr × Outcome) (he : e ∈ es)
    (huniq : ∀ x ∈ es, pathOf heap x = pathOf heap e → x = e) :
    retained heap es (pathOf heap e) = some e := by
  obtain ⟨x, hx⟩ := retained_of_mem heap es _ (List.mem_map_of_mem (pathOf heap) he)
  obtain ⟨hxm, hxp⟩ := retained_some heap es _ x hx
  rw [hx, huniq x hxm hxp]

theorem forall₂_of_mem_right {R : String → Record → Prop} (ks : List String)
    (rs : List Record) (h : List.Forall₂ R ks rs) (r : Record) (hr : r ∈ rs) :
    ∃ k ∈ ks, R k r := by
  induction h with
  | nil => simp at hr
  | @cons k r' ks rs hkr _ ih =>
    rcases List.mem_cons.1 hr with hr | hr
    · subst hr
      exact ⟨k, List.mem_cons_self _ _, hkr⟩
    · obtain ⟨k', hk', hR⟩ := ih hr
      exact ⟨k', List.mem_cons_of_mem _ hk', hR⟩

/-- Every record built comes from the entry that the tables hold for the
record's `Dependency`. -/
theorem record_source (heap : Heap) (es : Modules) (rs : List Record)
    (h : buildRecords heap es = Except.ok rs) (r : Record) (hr : r ∈ rs) :
    ∃ x, x ∈ es ∧ retained heap es r.Dependency = some x ∧ recordOf heap x = Except.ok r := by
  obtain ⟨k, _, x, hx, hxr⟩ := forall₂_of_mem_right _ rs (buildRecords_ok heap es rs h) r hr
  have hdep := (recordOf_ok heap x r hxr).1
  obtain ⟨hxm, hxp⟩ := retained_some heap es k x hx
  rw [hxp] at hdep
  exact ⟨x, hxm, by rw [hdep]; exact hx, hxr⟩

/-! ## The claims about `Finish` -/

/-- C12: after any sequence of `Finish` calls on the empty (nil) store, the
store has one entry per module (address) that occurs in the sequence and no
other: its keys are pairwise distinct, they are the modules of the calls, and
there are as many entries as distinct modules; the entry of a module holds
exactly the outcome of the last call for it (the error when that call had
one, the license otherwise); and one `Finish` for a module leaves the entries
of every other module as they were. -/
theorem finish_last_write_wins (calls : List FinishCall) :
    ((finishAll [] calls).map Prod.fst).Nodup ∧
      (∀ q, q ∈ (finishAll [] calls).map Prod.fst ↔ q ∈ calls.map FinishCall.m) ∧
      (finishAll [] calls).length = (calls.map FinishCall.m).dedup.length ∧
      (∀ pre post c, calls = pre ++ c :: post → (∀ d ∈ post, d.m ≠ c.m) →
        ∀ o, (c.m, o) ∈ finishAll [] calls ↔
          o = (match c.err with
            | some e => Outcome.err e
            | none => Outcome.lic c.l)) ∧
      (∀ (s : Modules) (c : FinishCall) (q : Ptr) (o : Outcome), q ≠ c.m →
        ((q, o) ∈ Finish s c.m c.l c.err ↔ (q, o) ∈ s)) := by
  have hnd := finishAll_nodup [] calls List.nodup_nil
  have hkeys : ∀ q, q ∈ (finishAll [] calls).map Prod.fst ↔ q ∈ calls.map FinishCall.m := by
    intro q
    rw [finishAll_keys]
    simp
  refine ⟨hnd, hkeys, ?_, ?_, ?_⟩
  · rw [← List.length_map (finishAll [] calls) Prod.fst]
    apply List.Perm.length_eq
    rw [List.perm_ext_iff_of_nodup hnd (List.nodup_dedup _)]
    intro q
    rw [hkeys, List.mem_dedup]
  · intro pre post c hc hlast o
    rw [hc, finishAll_append]
    have hstep : finishAll (finishAll [] pre) (c :: post) =
        finishAll (Finish (finishAll [] pre) c.m c.l c.err) post := rfl
    rw [hstep, finishAll_other _ post c.m o hlast, Finish_eq_storeSet]
    exact mem_storeSet_same _ c.m _ (finishAll_nodup [] pre List.nodup_nil) o
  · intro s c q o hq
    rw [Finish_eq_storeSet]
    exact mem_storeSet_other s c.m _ q o hq

theorem finish_last_write_wins_witness :
    finishAll [] demoCalls = [(1, Outcome.lic none), (2, Outcome.err "boom")] ∧
      (1, Outcome.lic none) ∈ finishAll [] demoCalls :=
  ⟨rfl, ((finish_last_write_wins demoCalls).2.2.2.1
    [ { m := 1, l := some { Name := "MIT License", SPDX := "MIT" }, err := none },
      { m := 2, l := some { Name := "MIT License", SPDX := "MIT" }, err := some "boom" } ]
    [] { m := 1, l := none, err := none } rfl (by simp) (Outcome.lic none)).2 rfl⟩

/-- C17: the outcomes of a store built by `Finish` calls alone, from the empty
store and in whatever order the map is iterated, are all errors or licenses;
so at every key the type switch of `Close` yields a record (its default branch
is not taken), and `Close` returns `nil` when no file operation fails. -/
theorem finished_store_closes (heap : Heap) (path : String) (calls : List FinishCall)
    (modules : Modules) (hperm : modules.Perm (finishAll [] calls)) :
    (∀ e ∈ modules, e.2.known = true) ∧
      (∀ k ∈ (collect heap modules).keys,
        ∃ r, classify heap (collect heap modules) k = Except.ok r) ∧
      (∀ env : FileEnv, env.createErr = none → (∀ n, env.writeErr n = none) →
        (Close heap path env modules).ret = Except.ok ()) := by
  have hknown : ∀ e ∈ modules, e.2.known = true := fun e he =>
    finishAll_known [] calls (by simp) e (hperm.mem_iff.1 he)
  refine ⟨hknown, ?_, ?_⟩
  · intro k hk
    rw [collect_keys] at hk
    obtain ⟨x, hx⟩ := retained_of_mem heap modules k hk
    rw [classify_collect, hx]
    exact recordOf_known heap x (hknown x (retained_some heap modules k x hx).1)
  · intro env hcreate hwrite
    obtain ⟨rs, hrs⟩ := buildRecords_total heap modules hknown
    rw [Close_ok_env heap path env modules hcreate hwrite, hrs]

theorem finished_store_closes_witness :
    (Close demoHeap "out.csv" FileEnv.ok (finishAll [] demoCalls).reverse).ret = Except.ok () :=
  (finished_store_closes demoHeap "out.csv" demoCalls (finishAll [] demoCalls).reverse
    (List.reverse_perm _)).2.2 FileEnv.ok rfl (fun _ => rfl)

/-- C18, as stated, fails in its consequence: the module `a 2` is finished
with both a license and an error in a store that holds `a 1`, of the same
path, with MIT; `Finish` stores the error, yet when `a 2` is iterated first
both records built are for `a 1` with MIT and the module is not reported as
`NOT-FOUND`. -/
theorem shadowed_finished_module_unreported :
    bothStore = [(1, Outcome.lic (some { Name := "MIT License", SPDX := "MIT" })),
        (2, Outcome.err "boom")] ∧
      bothStore.reverse.Perm bothStore ∧
      buildRecords dupHeap bothStore.reverse = Except.ok
        [⟨"a", "1", "MIT", "MIT License"⟩, ⟨"a", "1", "MIT", "MIT License"⟩] ∧
      ∀ r ∈ [(⟨"a", "1", "MIT", "MIT License"⟩ : Record), ⟨"a", "1", "MIT", "MIT License"⟩],
        r.SPDX ≠ "NOT-FOUND" ∧ r.License ≠ "not found" := by
  refine ⟨rfl, List.reverse_perm _, rfl, by decide⟩

/-- C18 (amended): `Finish(m, l, err)` with a non-nil `err` stores the error as the
outcome of `m`, whatever `l` is, and with a nil `err` it stores `l`. So for a
module finished with both a license and an error, whose path no other module
of the store has, the record that `Close` builds under its path, in whatever
order the map is iterated, is the one with `SPDX` `NOT-FOUND` and `License`
`not found`: no record of that path carries anything of the license. -/
theorem finish_error_overrides_license (heap : Heap) (s : Modules) (m : Ptr)
    (l : Option License) (e : String) (modules : Modules)
    (hnodup : (s.map Prod.fst).Nodup)
    (hunshared : ∀ x ∈ s, x.1 ≠ m → (heap x.1).Path ≠ (heap m).Path)
    (hperm : modules.Perm (Finish s m l (some e))) :
    (∀ o, (m, o) ∈ Finish s m l (some e) ↔ o = Outcome.err e) ∧
      (∀ o, (m, o) ∈ Finish s m l none ↔ o = Outcome.lic l) ∧
      classify heap (collect heap modules) (heap m).Path =
        Except.ok ⟨(heap m).Path, (heap m).Version, "NOT-FOUND", "not found"⟩ ∧
      (∀ rs, buildRecords heap modules = Except.ok rs →
        (⟨(heap m).Path, (heap m).Version, "NOT-FOUND", "not found"⟩ : Record) ∈ rs ∧
        ∀ r ∈ rs, r.Dependency = (heap m).Path →
          r = ⟨(heap m).Path, (heap m).Version, "NOT-FOUND", "not found"⟩) := by
  have hF : Finish s m l (some e) = storeSet s m (Outcome.err e) :=
    Finish_eq_storeSet s m l (some e)
  have h1 : ∀ o, (m, o) ∈ Finish s m l (some e) ↔ o = Outcome.err e := fun o => by
    rw [hF]; exact mem_storeSet_same s m _ hnodup o
  have h2 : ∀ o, (m, o) ∈ Finish s m l none ↔ o = Outcome.lic l := fun o => by
    rw [Finish_eq_storeSet]; exact mem_storeSet_same s m _ hnodup o
  have hmem : (m, Outcome.err e) ∈ modules := hperm.mem_iff.2 ((h1 _).2 rfl)
  have huniq : ∀ x ∈ modules, pathOf heap x = pathOf heap (m, Outcome.err e) →
      x = (m, Outcome.err e) := by
    rintro ⟨q, o⟩ hx hp
    have hx' : (q, o) ∈ storeSet s m (Outcome.err e) := hF ▸ hperm.mem_iff.1 hx
    by_cases hq : q = m
    · subst hq
      rw [(mem_storeSet_same s q _ hnodup o).1 hx']
    · exact absurd hp (hunshared (q, o) ((mem_storeSet_other s m _ q o hq).1 hx') hq)
  have hret := retained_unique heap modules _ hmem huniq
  have hret' : retained heap modules (heap m).Path = some (m, Outcome.err e) := hret
  refine ⟨h1, h2, ?_, ?_⟩
  · rw [classify_collect, hret']
    rfl
  · intro rs hrs
    constructor
    · have hk : (heap m).Path ∈ sortStrings (modules.map (pathOf heap)) :=
        (sortStrings_perm _).mem_iff.2 (List.mem_map_of_mem (pathOf heap) hmem)
      obtain ⟨r, hr, x, hx, hxr⟩ :=
        forall₂_of_mem _ rs (buildRecords_ok heap modules rs hrs) _ hk
      rw [hret'] at hx
      cases hx
      cases hxr
      exact hr
    · intro r hr hdep
      obtain ⟨x, _, hx, hxr⟩ := record_source heap modules rs hrs r hr
      rw [hdep, hret'] at hx
      cases hx
      cases hxr
      rfl

theorem finish_error_overrides_license_witness :
    classify demoHeap
        (collect demoHeap
          (Finish [(1, Outcome.lic none)] 2 (some { Name := "MIT License", SPDX := "MIT" })
            (some "boom")))
        "alpha" =
      Except.ok ⟨"alpha", "0.1", "NOT-FOUND", "not found"⟩ :=
  (finish_error_overrides_license demoHeap [(1, Outcome.lic none)] 2
    (some { Name := "MIT License", SPDX := "MIT" }) "boom" _ (by decide) (by decide)
    (List.Perm.refl _)).2.2.1

/-! ## The claims about the rows and the records -/

theorem writeRows_none (env : FileEnv) (rows : List (List String)) (n : Nat)
    (acc : List (List String)) (h : (writeRows env n rows acc).1 = none) :
    (writeRows env n rows acc).2 = acc ++ rows ∧
      ∀ i, i < rows.length → env.writeErr (n + i) = none := by
  induction rows generalizing n acc with
  | nil => simp [writeRows]
  | cons row rest ih =>
    rw [writeRows] at h ⊢
    cases hw : env.writeErr n with
    | some e => rw [hw] at h; cases h
    | none =>
      rw [hw] at h
      simp only at h ⊢
      obtain ⟨h1, h2⟩ := ih (n + 1) (acc ++ [row]) h
      refine ⟨by rw [h1]; simp, ?_⟩
      intro i hi
      cases i with
      | zero => exact hw
      | succ j =>
        have := h2 j (by simpa using hi)
        rw [show n + (j + 1) = n + 1 + j by omega]
        exact this

/-- When `Close` returns `nil`: the file was created, the records were built,
no call of `w.Write` failed, and the rows are the header and the records. -/
theorem Close_ret_ok (heap : Heap) (path : String) (env : FileEnv) (modules : Modules)
    (h : (Close heap path env modules).ret = Except.ok ()) :
    env.createErr = none ∧ ∃ rs, buildRecords heap modules = Except.ok rs ∧
      (Close heap path env modules).written = headers :: rs.map Record.ToRow ∧
      ∀ n, n ≤ rs.length → env.writeErr n = none := by
  unfold Close at h ⊢
  cases hc : env.createErr with
  | some e => rw [hc] at h; cases h
  | none =>
    rw [hc] at h
    refine ⟨rfl, ?_⟩
    cases hb : buildRecords heap modules with
    | error f => rw [hb] at h; cases h
    | ok rs =>
      rw [hb] at h
      refine ⟨rs, rfl, ?_⟩
      cases hw : env.writeErr 0 with
      | some e => rw [hw] at h; cases h
      | none =>
        rw [hw] at h
        simp only at h ⊢
        cases hr : writeRows env 1 (rs.map Record.ToRow) [headers] with
        | mk fst snd =>
          rw [hr] at h
          cases fst with
          | some e => cases h
          | none =>
            have := writeRows_none env (rs.map Record.ToRow) 1 [headers] (by rw [hr])
            rw [hr] at this
            refine ⟨by simpa using this.1, ?_⟩
            intro n hn
            cases n with
            | zero => exact hw
            | succ j =>
              have := this.2 j (by simpa using hn)
              rw [show j + 1 = 1 + j by omega]
              exact this

/-- The failures of `os.Create` and of `w.Write` are returned: a failed
`os.Create` gives the wrapped error, and `Close` returns `nil` only if the
file was created and every call of `w.Write` it made succeeded. -/
theorem create_and_write_failures_returned (heap : Heap) (path : String) (env : FileEnv)
    (modules : Modules) :
    (∀ e, env.createErr = some e → (Close heap path env modules).ret =
        Except.error (Failure.returned ("failed to create file: " ++ path ++ ": " ++ e))) ∧
      ((Close heap path env modules).ret = Except.ok () →
        env.createErr = none ∧ ∃ rs, buildRecords heap modules = Except.ok rs ∧
          ∀ n, n ≤ rs.length → env.writeErr n = none) := by
  constructor
  · intro e he
    simp [Close, he]
  · intro h
    obtain ⟨h1, rs, h2, _, h4⟩ := Close_ret_ok heap path env modules h
    exact ⟨h1, rs, h2, h4⟩

/-- C11: when `Close` returns `nil`, the rows handed to the writer are the
header row `Dependency, Version, SPDX, License` followed by the row
`Dependency, Version, SPDX, License` of each record built, in their order;
for the empty store (also the nil map of an output on which `Finish` was never
called) they are the header row alone; and `Close` does return `nil` when no
file operation fails and every outcome is a license or an error. -/
theorem close_writes_header_then_rows (heap : Heap) (path : String) (env : FileEnv)
    (modules : Modules) :
    ((Close heap path env modules).ret = Except.ok () →
        ∃ rs, buildRecords heap modules = Except.ok rs ∧
          (Close heap path env modules).written =
            ["Dependency", "Version", "SPDX", "License"] ::
              rs.map (fun r => [r.Dependency, r.Version, r.SPDX, r.License])) ∧
      (env.createErr = none → env.writeErr 0 = none →
        Close heap path env [] =
          { ret := Except.ok (), created := true
            written := [["Dependency", "Version", "SPDX", "License"]] }) ∧
      (env.createErr = none → (∀ n, env.writeErr n = none) →
        (∀ e ∈ modules, e.2.known = true) →
        (Close heap path env modules).ret = Except.ok ()) := by
  refine ⟨?_, ?_, ?_⟩
  · intro h
    obtain ⟨_, rs, h2, h3, _⟩ := Close_ret_ok heap path env modules h
    exact ⟨rs, h2, h3⟩
  · intro hc hw
    have hb : buildRecords heap [] = Except.ok [] := rfl
    simp [Close, hc, hb, hw, writeRows, headers]
  · intro hc hw hknown
    obtain ⟨rs, hrs⟩ := buildRecords_total heap modules hknown
    rw [Close_ok_env heap path env modules hc hw, hrs]

theorem close_writes_header_then_rows_witness :
    (Close demoHeap "out.csv" FileEnv.ok demoStore).written =
        [["Dependency", "Version", "SPDX", "License"],
          ["alpha", "0.1", "NOT-FOUND", "not found"], ["zlib", "1.2", "MIT", "MIT License"]] ∧
      ∃ rs, buildRecords demoHeap demoStore = Except.ok rs ∧
        (Close demoHeap "out.csv" FileEnv.ok demoStore).written =
          ["Dependency", "Version", "SPDX", "License"] ::
            rs.map (fun r => [r.Dependency, r.Version, r.SPDX, r.License]) :=
  ⟨rfl, (close_writes_header_then_rows demoHeap "out.csv" FileEnv.ok demoStore).1 rfl⟩

/-- C13 fails on the code: with a deferred flush that fails, and no other file
operation failing, `Close` returns `nil` as if the rows had reached the
file. -/
theorem flush_failure_returns_nil :
    flushFailEnv.flushErr = some "disk full" ∧
      Close demoHeap "out.csv" flushFailEnv demoStore =
        { ret := Except.ok (), created := true
          written := [headers, ["alpha", "0.1", "NOT-FOUND", "not found"],
            ["zlib", "1.2", "MIT", "MIT License"]] } :=
  ⟨rfl, rfl⟩

/-- C16: every record built by `Close`, shared paths or not, comes from one
entry of the store: its `Dependency` and `Version` are that entry's path and
version, and its `SPDX` and `License` are what the type switch gives for that
same entry's outcome. -/
theorem record_from_single_entry (heap : Heap) (modules : Modules) (rs : List Record)
    (hbuilt : buildRecords heap modules = Except.ok rs) :
    ∀ r ∈ rs, ∃ p o, (p, o) ∈ modules ∧
      r.Dependency = (heap p).Path ∧ r.Version = (heap p).Version ∧
      ((∃ msg, o = Outcome.err msg ∧ r.SPDX = "NOT-FOUND" ∧ r.License = "not found") ∨
        (o = Outcome.lic none ∧ r.SPDX = "NOT-FOUND" ∧ r.License = "not-found") ∨
        (∃ l, o = Outcome.lic (some l) ∧ r.SPDX = l.SPDX ∧ r.License = l.Name)) := by
  intro r hr
  obtain ⟨⟨p, o⟩, hx, _, hxr⟩ := record_source heap modules rs hbuilt r hr
  refine ⟨p, o, hx, ?_⟩
  cases o with
  | err msg =>
    simp only [recordOf, Except.ok.injEq] at hxr
    subst hxr
    exact ⟨rfl, rfl, Or.inl ⟨msg, rfl, rfl, rfl⟩⟩
  | lic l =>
    cases l with
    | none =>
      simp only [recordOf, Except.ok.injEq] at hxr
      subst hxr
      exact ⟨rfl, rfl, Or.inr (Or.inl ⟨rfl, rfl, rfl⟩)⟩
    | some l =>
      simp only [recordOf, Except.ok.injEq] at hxr
      subst hxr
      exact ⟨rfl, rfl, Or.inr (Or.inr ⟨l, rfl, rfl, rfl⟩)⟩
  | other ty => simp [recordOf] at hxr

theorem record_from_single_entry_witness :
    buildRecords dupHeap dupStore = Except.ok
        [⟨"a", "2", "NOT-FOUND", "not found"⟩, ⟨"a", "2", "NOT-FOUND", "not found"⟩] ∧
      ∃ p o, (p, o) ∈ dupStore ∧
        (⟨"a", "2", "NOT-FOUND", "not found"⟩ : Record).Dependency = (dupHeap p).Path ∧
        (⟨"a", "2", "NOT-FOUND", "not found"⟩ : Record).Version = (dupHeap p).Version ∧
        ((∃ msg, o = Outcome.err msg ∧
            (⟨"a", "2", "NOT-FOUND", "not found"⟩ : Record).SPDX = "NOT-FOUND" ∧
            (⟨"a", "2", "NOT-FOUND", "not found"⟩ : Record).License = "not found") ∨
          (o = Outcome.lic none ∧
            (⟨"a", "2", "NOT-FOUND", "not found"⟩ : Record).SPDX = "NOT-FOUND" ∧
            (⟨"a", "2", "NOT-FOUND", "not found"⟩ : Record).License = "not-found") ∨
          (∃ l, o = Outcome.lic (some l) ∧
            (⟨"a", "2", "NOT-FOUND", "not found"⟩ : Record).SPDX = l.SPDX ∧
            (⟨"a", "2", "NOT-FOUND", "not found"⟩ : Record).License = l.Name)) :=
  ⟨rfl, record_from_single_entry dupHeap dupStore _ rfl _ (List.mem_cons_self _ _)⟩

theorem recordOf_refClassify (heap : Heap) (x : Ptr × Outcome) (h : x.2.known = true) :
    ∃ r, recordOf heap x = Except.ok r ∧ refClassify heap x = some r := by
  obtain ⟨p, o⟩ := x
  cases o with
  | err msg => exact ⟨_, rfl, rfl⟩
  | lic l => cases l <;> exact ⟨_, rfl, rfl⟩
  | other ty => simp [Outcome.known] at h

theorem classifyAll_entries (heap : Heap) (es : Modules) (L : Modules)
    (h : ∀ x ∈ L, x.2.known = true ∧ retained heap es (pathOf heap x) = some x) :
    classifyAll heap (collect heap es) (L.map (pathOf heap)) =
      Except.ok (L.filterMap (refClassify heap)) := by
  induction L with
  | nil => rfl
  | cons x L ih =>
    obtain ⟨hk, hret⟩ := h x (List.mem_cons_self _ _)
    obtain ⟨r, hr, hr'⟩ := recordOf_refClassify heap x hk
    have hc : classify heap (collect heap es) (pathOf heap x) = Except.ok r := by
      rw [classify_collect, hret]
      exact hr
    rw [List.map_cons, classifyAll, hc, ih (fun y hy => h y (List.mem_cons_of_mem _ hy)),
      List.filterMap_cons, hr']

theorem sortEntries_paths (heap : Heap) (modules : Modules) :
    (sortEntries heap modules).map (pathOf heap) = sortStrings (modules.map (pathOf heap)) := by
  unfold sortEntries sortStrings
  exact List.map_insertionSort (fun a b : Ptr × Outcome => StrLe (heap a.1).Path (heap b.1).Path)
    StrLe (pathOf heap) modules (fun _ _ _ _ => Iff.rfl)

theorem records_dependency (heap : Heap) (modules : Modules) (rs : List Record)
    (hbuilt : buildRecords heap modules = Except.ok rs) :
    rs.map Record.Dependency = sortStrings (modules.map (pathOf heap)) := by
  have hf := buildRecords_ok heap modules rs hbuilt
  clear hbuilt
  generalize sortStrings (modules.map (pathOf heap)) = ks at hf
  induction hf with
  | nil => rfl
  | @cons k r ks rs hkr _ ih =>
    obtain ⟨x, hx, hr⟩ := hkr
    rw [List.map_cons, ih, (recordOf_ok heap x r hr).1, (retained_some heap modules k x hx).2]

/-- C15: for a store whose modules have pairwise distinct paths and whose
outcomes are all licenses or errors, the records built by `Close` are the
reference list (the entries sorted by module path, each classified as the
specification says), and their `Dependency` fields are strictly ascending. -/
theorem records_eq_reference (heap : Heap) (modules : Modules)
    (hdistinct : (modules.map (fun e => (heap e.1).Path)).Nodup)
    (hknown : ∀ e ∈ modules, e.2.known = true) :
    buildRecords heap modules = Except.ok (referenceRecords heap modules) ∧
      List.Sorted (fun a b => StrLe a b ∧ a ≠ b)
        ((referenceRecords heap modules).map Record.Dependency) := by
  have hb : buildRecords heap modules = Except.ok (referenceRecords heap modules) := by
    unfold buildRecords
    simp only
    rw [sorted_keys, ← sortEntries_paths]
    apply classifyAll_entries
    intro x hx
    have hxm : x ∈ modules := (List.perm_insertionSort _ modules).mem_iff.1 hx
    refine ⟨hknown x hxm, retained_unique heap modules x hxm ?_⟩
    intro y hy hp
    exact List.inj_on_of_nodup_map hdistinct hy hxm hp
  refine ⟨hb, ?_⟩
  rw [records_dependency heap modules _ hb]
  have hnd : (sortStrings (modules.map (pathOf heap))).Nodup :=
    (sortStrings_perm _).nodup_iff.2 hdistinct
  exact List.Pairwise.and (sortStrings_sorted _) hnd

theorem records_eq_reference_witness :
    referenceRecords demoHeap demoStore =
        [⟨"alpha", "0.1", "NOT-FOUND", "not found"⟩, ⟨"zlib", "1.2", "MIT", "MIT License"⟩] ∧
      buildRecords demoHeap demoStore = Except.ok (referenceRecords demoHeap demoStore) ∧
      List.Sorted (fun a b => StrLe a b ∧ a ≠ b)
        ((referenceRecords demoHeap demoStore).map Record.Dependency) :=
  ⟨rfl, records_eq_reference demoHeap demoStore (by decide) (by decide)⟩

end Golicense
